import Mathlib

/-!
Verification of the fenced-code-block preprocessor
(`zerver/lib/bugdown/fenced_code.py`).

Strings are modelled as `List Char`; the document is the `"\n"`-join of its
lines.  The two regular expressions of the source,

  FENCE_RE        = ^(~{3,})[ ]*(\{?\.?([a-zA-Z0-9_+-]*)\}?)$        (M|S)
  FENCED_BLOCK_RE = ^(~{3,})[ ]*(\{?\.?([a-zA-Z0-9_+-]*)\}?)?[ ]*\n
                    (.*?)(?<=\n)(\1)[ ]*$                            (M|S)

are translated into deterministic line-level parsers.  This is faithful
because `^` can only match at a line start, the opening tilde run must be
maximal (no later element of the pattern can consume a `~`), the character
classes of the optional tag elements (`{`, `.`, word chars, `}`, spaces) are
pairwise disjoint so greedy parsing decides matchability, the non-greedy body
together with the `(?<=\n)` look-behind makes the closing fence the first
line, after the opening line, consisting of the same literal tilde run
followed only by spaces, and `search` returns the leftmost opening line that
has such a closer.  The `while 1` loop of `run` is given explicit fuel; the
stale `end = m.end()` offset (measured in the pre-substitution text) is
threaded exactly as in the source.
-/

namespace Fenced

abbrev Str := List Char

def str (s : String) : Str := s.data

/-- Length of the leading run of `~` characters (the `fence` group). -/
def tildeRun : Str → Nat
  | [] => 0
  | c :: t => if c = '~' then tildeRun t + 1 else 0

/-- The character class `[a-zA-Z0-9_+-]` of the `lang` group. -/
def isWordChar (c : Char) : Bool :=
  c.isAlpha || c.isDigit || c = '_' || c = '+' || c = '-'

def dropSp (s : Str) : Str := s.dropWhile (fun c => c = ' ')

/-- An optional single-character element `c?` of the tag pattern. -/
def stripOpt (c : Char) (s : Str) : Str :=
  match s with
  | x :: t => if x = c then t else s
  | [] => s

/-- Parse `[ ]*(\{?\.?(lang)\}?)?[ ]*` against the rest of an opening-fence
line (everything after the tilde run, the terminating newline excluded);
returns the captured `lang` when the whole rest matches. -/
def parseTag (s : Str) : Option Str :=
  let s1 := dropSp s
  let s2 := stripOpt '{' s1
  let s3 := stripOpt '.' s2
  let lang := s3.takeWhile isWordChar
  let s4 := s3.dropWhile isWordChar
  let s5 := stripOpt '}' s4
  if dropSp s5 = [] then some lang else none

/-- Parse `[ ]*(\{?\.?lang\}?)$` (FENCE_RE: no trailing spaces after the
tag) against the rest of a fence line. -/
def fenceTagStrict (s : Str) : Bool :=
  let s1 := dropSp s
  let s2 := stripOpt '{' s1
  let s3 := stripOpt '.' s2
  let s4 := s3.dropWhile isWordChar
  let s5 := stripOpt '}' s4
  s5 = []

/-- An opening fence line of FENCED_BLOCK_RE: a run of three or more tildes,
then the optional tag, then (in the text) a mandatory newline.  Returns the
run length and the captured language tag (`""` when absent). -/
def openerLine (l : Str) : Option (Nat × Str) :=
  let n := tildeRun l
  if 3 ≤ n then (parseTag (l.drop n)).map (fun lg => (n, lg)) else none

/-- A line matched by FENCE_RE (a dangling fence marker on a line of its
own); returns the length of the tilde run (the `fence` group). -/
def fenceLine (l : Str) : Option Nat :=
  let n := tildeRun l
  if 3 ≤ n then (if fenceTagStrict (l.drop n) then some n else none) else none

/-- The closing fence `(?<=\n)(?P=fence)[ ]*$`: the line must consist of
exactly the opening tilde run followed only by spaces.  Returns the number of
trailing spaces consumed by `[ ]*$`. -/
def closerLine (n : Nat) (l : Str) : Option Nat :=
  if l.take n = List.replicate n '~' then
    (if (l.drop n).all (fun c => c = ' ') then some (l.drop n).length else none)
  else none

/-- A match of FENCED_BLOCK_RE, as the decomposition of the line list:
`pre ++ [opener] ++ body ++ [closer] ++ suf` with
`opener = replicate fence '~' ++ tagRaw` and
`closer = replicate fence '~' ++ replicate trail ' '`. -/
structure FMatch where
  pre : List Str
  fence : Nat
  tagRaw : Str
  lang : Str
  body : List Str
  trail : Nat
  suf : List Str
deriving Repr, DecidableEq

def openerOf (m : FMatch) : Str := List.replicate m.fence '~' ++ m.tagRaw

def closerOf (m : FMatch) : Str :=
  List.replicate m.fence '~' ++ List.replicate m.trail ' '

/-- Scan for the first closing line for a fence of `n` tildes; returns the
body lines before it, its trailing-space count, and the lines after it. -/
def findCloser (n : Nat) : List Str → Option (List Str × Nat × List Str)
  | [] => none
  | l :: ls =>
    match closerLine n l with
    | some tr => some ([], tr, ls)
    | none => (findCloser n ls).map (fun x => (l :: x.1, x.2.1, x.2.2))

/-- `FENCED_BLOCK_RE.search`: the leftmost opening-fence line that has a
closing line after it (the opening line must be followed by a newline, hence
by at least one further line). -/
def searchB : List Str → Option FMatch
  | [] => none
  | l :: ls =>
    match openerLine l with
    | some nl =>
      match findCloser nl.1 ls with
      | some bts => some ⟨[], nl.1, l.drop nl.1, nl.2, bts.1, bts.2.1, bts.2.2⟩
      | none => (searchB ls).map (fun m => { m with pre := l :: m.pre })
    | none => (searchB ls).map (fun m => { m with pre := l :: m.pre })

/-- Python `"\n".join`. -/
def joinLines : List Str → Str
  | [] => []
  | [l] => l
  | l :: ls => l ++ '\n' :: joinLines ls

/-- Every line terminated by a newline (`pre` of a match rendered as text:
the match starts at a line start). -/
def flatLn (ls : List Str) : Str := ls.foldr (fun l acc => l ++ '\n' :: acc) []

/-- Prepend a character to the first piece of a split. -/
def consHead (c : Char) : List Str → List Str
  | [] => [[c]]
  | h :: r => (c :: h) :: r

/-- Python `.split("\n")`. -/
def splitNl : Str → List Str
  | [] => [[]]
  | c :: t => if c = '\n' then [] :: splitNl t else consHead c (splitNl t)

/-- Python `.split("\n\n")` (leftmost, non-overlapping). -/
def splitPara : Str → List Str
  | '\n' :: '\n' :: t => [] :: splitPara t
  | c :: t => consHead c (splitPara t)
  | [] => [[]]

/-- `"\n".join("> " + line for line in paragraph.split("\n") if line != '')`. -/
def quotePara (p : Str) : Str :=
  joinLines (((splitNl p).filter (fun l => l ≠ [])).map (fun l => '>' :: ' ' :: l))

/-- Python `"\n\n".join`. -/
def join2Nl : List Str → Str
  | [] => []
  | [p] => p
  | p :: ps => p ++ '\n' :: '\n' :: join2Nl ps

/-- The blockquote replacement built from a captured code body. -/
def quoteRepl (body : Str) : Str := join2Nl ((splitPara body).map quotePara)

/-- Python `txt.replace(c, r)` for a single-character pattern. -/
def replAll (c : Char) (r : Str) (s : Str) : Str :=
  s.foldr (fun a acc => if a = c then r ++ acc else a :: acc) []

/-- `_escape`: `&`, `<`, `>`, `"` replaced in that order. -/
def escape (s : Str) : Str :=
  replAll '"' (str ("&quot;"))
    (replAll '>' (str ("&gt;"))
      (replAll '<' (str ("&lt;"))
        (replAll '&' (str ("&amp;")) s)))

/-- `LANG_TAG % lang`. -/
def langTag (lang : Str) : Str := str (" class=\"") ++ lang ++ ['"']

/-- `CODE_WRAP % (cls, inner)`. -/
def codeWrap (cls inner : Str) : Str :=
  str ("<pre><code") ++ cls ++ '>' :: inner ++ str ("</code></pre>")

/-- The preprocessor's external collaborators: the Placeholder Store's token
for the `i`-th `store` call, and the optional syntax highlighter
(`CodeHilite`, called with the code body and `lang or None`). -/
structure Cfg where
  ph : Nat → Str
  hilite : Option (Str → Option Str → Str)

def isQuoteTag (lang : Str) : Bool :=
  lang == str ("quote") || lang == str ("quoted")

/-- `process_fence`, at line level.  The string-level splice
`text[:m.start()] + '\n' + R + '\n' + text[m.end():]` equals, as a line
list, `pre ++ [""] ++ splitNl R ++ [""] ++ suf`.  Returns the new line list
and the stash (the store receives one `code` string per non-quote block; the
token of the `i`-th call is `cfg.ph i`). -/
def processFence (cfg : Cfg) (m : FMatch) (st : List Str) : List Str × List Str :=
  if isQuoteTag m.lang then
    (m.pre ++ [[]] ++ splitNl (quoteRepl (flatLn m.body)) ++ [[]] ++ m.suf, st)
  else
    let code :=
      match cfg.hilite with
      | some h => h (flatLn m.body) (if m.lang = [] then none else some m.lang)
      | none =>
        codeWrap (if m.lang = [] then [] else langTag m.lang) (escape (flatLn m.body))
    (m.pre ++ [[]] ++ splitNl (cfg.ph st.length) ++ [[]] ++ m.suf, st ++ [code])

/-- `m.end()`: the offset, in the text the match was found in, of the end of
the closing fence (trailing spaces included). -/
def matchEnd (m : FMatch) : Nat :=
  (flatLn m.pre).length + (openerOf m).length + 1 + (flatLn m.body).length
    + m.fence + m.trail

/-- The `while 1` loop of `run`, with explicit fuel.  Each iteration searches
the whole current text, records `end = m.end()` (an offset in the
pre-substitution text), substitutes, and re-scans. -/
def mainLoop (cfg : Cfg) : Nat → List Str → Nat → List Str → List Str × Nat × List Str
  | 0, ls, e, st => (ls, e, st)
  | Nat.succ fuel, ls, e, st =>
    match searchB ls with
    | some m =>
      let r := processFence cfg m st
      mainLoop cfg fuel r.1 (matchEnd m) r.2
    | none => (ls, e, st)

/-- `FENCE_RE.search(text, pos)`: the first line whose start offset is at
least `pos` and which FENCE_RE matches; returns its tilde-run length.
`cur` is the offset of the head of the remaining line list. -/
def searchFenceFrom (pos : Nat) : Nat → List Str → Option Nat
  | _, [] => none
  | cur, l :: ls =>
    if pos ≤ cur then
      match fenceLine l with
      | some n => some n
      | none => searchFenceFrom pos (cur + l.length + 1) ls
    else searchFenceFrom pos (cur + l.length + 1) ls

/-- `text[-2:] == '\n\n'`. -/
def ends2nl (t : Str) : Bool :=
  match t.reverse with
  | c1 :: c2 :: _ => c1 = '\n' && c2 = '\n'
  | _ => false

/-- Number of fence-marker lines (lines opening with three or more tildes):
the loop's fuel bound. -/
def countFence (ls : List Str) : Nat :=
  ls.countP (fun l => decide (3 ≤ tildeRun l))

/-- The trailing-fence fix-up of `run`: search for a dangling fence at or
after `e`; if found, splice a synthetic closing fence (before the two
trailing newlines when the text ends with them, else at the very end) and
process one more block if one now matches. -/
def fixup (cfg : Cfg) (ls : List Str) (e : Nat) (st : List Str) : List Str × List Str :=
  match searchFenceFrom e 0 ls with
  | some fr =>
    let t := joinLines ls
    let t2 :=
      if ends2nl t then
        t.take (t.length - 2) ++ '\n' :: List.replicate fr '~' ++ '\n' :: '\n' :: []
      else t ++ List.replicate fr '~'
    let ls2 := splitNl t2
    match searchB ls2 with
    | some m => processFence cfg m st
    | none => (ls2, st)
  | none => (ls, st)

/-- `FencedBlockPreprocessor.run`: join the lines, run the main loop, apply
the one-shot fix-up, split back into lines.  Also returns the stash. -/
def run (cfg : Cfg) (lines : List Str) : List Str × List Str :=
  let ls := splitNl (joinLines lines)
  let r := mainLoop cfg (countFence ls + 1) ls 0 []
  fixup cfg r.1 r.2.1 r.2.2

/-- Decimal digit characters. -/
def digitChar (d : Nat) : Char := (str ("0123456789")).getD d '0'

def natDigitsAux : Nat → Nat → Str
  | 0, _ => []
  | Nat.succ f, n =>
    if n < 10 then [digitChar n]
    else natDigitsAux f (n / 10) ++ [digitChar (n % 10)]

def natDigits (n : Nat) : Str := natDigitsAux (n + 1) n

/-- The host pipeline's HtmlStash placeholder token for the `i`-th stored
element: `"\x02wzxhzdk:%d\x03"`. -/
def mdPlaceholder (i : Nat) : Str :=
  '\x02' :: str ("wzxhzdk:") ++ natDigits i ++ ['\x03']

/-- The concrete configuration: real placeholder tokens, no highlighter. -/
def cfg0 : Cfg := ⟨mdPlaceholder, none⟩

/-- Placeholder tokens are opaque: none of their lines is a fence marker. -/
def PhOK (cfg : Cfg) : Prop :=
  ∀ i, ∀ l ∈ splitNl (cfg.ph i), tildeRun l < 3

/-!
A model of well-formed input: a document is a sequence of plain lines and
disjoint fenced blocks with matching tilde-run delimiters.  A block of `n`
tildes with language tag `lang` renders as the opening line
`~^n[ lang]`, the body lines, and the closing line `~^n`; well-formedness
requires the plain and body lines to carry no fence marker (fewer than
three leading tildes) and no newline, and the tag to consist of word
characters.
-/

inductive Item where
  | plain (l : Str)
  | block (n : Nat) (lang : Str) (body : List Str)

/-- The text of the opening fence after the tilde run. -/
def tagOf (lang : Str) : Str := if lang = [] then [] else ' ' :: lang

def itemLines : Item → List Str
  | .plain l => [l]
  | .block n lang body =>
    (List.replicate n '~' ++ tagOf lang) :: body ++ [List.replicate n '~']

def docLines (doc : List Item) : List Str :=
  doc.foldr (fun i acc => itemLines i ++ acc) []

def lineOK (l : Str) : Prop := tildeRun l < 3 ∧ '\n' ∉ l

def itemWF : Item → Prop
  | .plain l => lineOK l
  | .block n lang body =>
    3 ≤ n ∧ (∀ c ∈ lang, isWordChar c = true) ∧ ∀ l ∈ body, lineOK l

def docWF (doc : List Item) : Prop := doc ≠ [] ∧ ∀ i ∈ doc, itemWF i

def numBlocks (doc : List Item) : Nat :=
  doc.countP (fun i => match i with | .plain _ => false | .block _ _ _ => true)

/-- Whether an item is a block carrying the `quote`/`quoted` tag. -/
def isQuoteItem : Item → Bool
  | .plain _ => false
  | .block _ lang _ => isQuoteTag lang

/-- The markup the `i`-th item contributes to the Placeholder Store (one
element for a non-quote block, nothing otherwise). -/
def blockMarkup (cfg : Cfg) : Item → List Str
  | .plain _ => []
  | .block _ lang body =>
    if isQuoteTag lang then []
    else
      [match cfg.hilite with
       | some h => h (flatLn body) (if lang = [] then none else some lang)
       | none =>
         codeWrap (if lang = [] then [] else langTag lang) (escape (flatLn body))]

/-- The output lines an item becomes, `k` being the number of store calls
already made. -/
def itemOut (cfg : Cfg) (k : Nat) : Item → List Str
  | .plain l => [l]
  | .block _ lang body =>
    if isQuoteTag lang then [] :: splitNl (quoteRepl (flatLn body)) ++ [[]]
    else [] :: splitNl (cfg.ph k) ++ [[]]

/-- The expected result of `run` on a well-formed document: the output
lines and the stash, blocks replaced in input order. -/
def docOut (cfg : Cfg) (k : Nat) : List Item → List Str × List Str
  | [] => ([], [])
  | i :: rest =>
    let s := blockMarkup cfg i
    let r := docOut cfg (k + s.length) rest
    (itemOut cfg k i ++ r.1, s ++ r.2)

/-- The length of the text a suffix line list stands for inside a larger
text (one separating newline when the suffix is nonempty). -/
def sufStrLen (ls : List Str) : Nat :=
  match ls with
  | [] => 0
  | _ => (joinLines ls).length + 1

/-! ### Splitting and joining -/

theorem splitNl_cons_nl (t : Str) : splitNl ('\n' :: t) = [] :: splitNl t := by
  simp [splitNl]

theorem splitNl_cons (c : Char) (t : Str) (h : c ≠ '\n') :
    splitNl (c :: t) = consHead c (splitNl t) := by
  simp [splitNl, h]

theorem splitNl_ne_nil (t : Str) : splitNl t ≠ [] := by
  cases t with
  | nil => simp [splitNl]
  | cons c t =>
    by_cases h : c = '\n'
    · subst h
      simp [splitNl_cons_nl]
    · rw [splitNl_cons c t h]
      cases hs : splitNl t <;> simp [consHead]

theorem consHead_append (c : Char) (ls ms : List Str) (h : ls ≠ []) :
    consHead c (ls ++ ms) = consHead c ls ++ ms := by
  cases ls with
  | nil => exact absurd rfl h
  | cons l ls => simp [consHead]

theorem splitNl_append_nl (a b : Str) :
    splitNl (a ++ '\n' :: b) = splitNl a ++ splitNl b := by
  induction a with
  | nil => simp [splitNl_cons_nl, splitNl]
  | cons c a ih =>
    have e1 : (c :: a) ++ '\n' :: b = c :: (a ++ '\n' :: b) := rfl
    by_cases h : c = '\n'
    · subst h
      rw [e1, splitNl_cons_nl, splitNl_cons_nl, ih]
      rfl
    · rw [e1, splitNl_cons c _ h, splitNl_cons c a h, ih,
        consHead_append c (splitNl a) (splitNl b) (splitNl_ne_nil a)]

theorem splitNl_of_nlFree (a : Str) (h : '\n' ∉ a) : splitNl a = [a] := by
  induction a with
  | nil => rfl
  | cons c a ih =>
    have hc : c ≠ '\n' := fun hc => h (hc ▸ List.mem_cons_self c a)
    have ha : '\n' ∉ a := fun hm => h (List.mem_cons_of_mem c hm)
    rw [splitNl_cons c a hc, ih ha]
    rfl

theorem nlFree_splitNl (t : Str) : ∀ l ∈ splitNl t, '\n' ∉ l := by
  induction t with
  | nil =>
    intro l hl
    simp [splitNl] at hl
    simp [hl]
  | cons c t ih =>
    intro l hl
    by_cases h : c = '\n'
    · subst h
      rw [splitNl_cons_nl] at hl
      rcases List.mem_cons.1 hl with hl | hl
      · simp [hl]
      · exact ih l hl
    · rw [splitNl_cons c t h] at hl
      cases hs : splitNl t with
      | nil => exact absurd hs (splitNl_ne_nil t)
      | cons x r =>
        rw [hs] at hl
        simp only [consHead] at hl
        rcases List.mem_cons.1 hl with he | he
        · subst he
          intro hm
          rcases List.mem_cons.1 hm with hm | hm
          · exact h hm.symm
          · exact ih x (hs ▸ List.mem_cons_self x r) hm
        · exact ih l (hs ▸ List.mem_cons_of_mem x he)

theorem joinLines_cons (l : Str) (ls : List Str) (h : ls ≠ []) :
    joinLines (l :: ls) = l ++ '\n' :: joinLines ls := by
  cases ls with
  | nil => exact absurd rfl h
  | cons m ms => rfl

theorem joinLines_consHead (c : Char) (ls : List Str) :
    joinLines (consHead c ls) = c :: joinLines ls := by
  cases ls with
  | nil => rfl
  | cons l ls =>
    cases ls with
    | nil => rfl
    | cons m ms => rfl

theorem joinLines_splitNl (t : Str) : joinLines (splitNl t) = t := by
  induction t with
  | nil => rfl
  | cons c t ih =>
    by_cases h : c = '\n'
    · subst h
      rw [splitNl_cons_nl, joinLines_cons [] (splitNl t) (splitNl_ne_nil t), ih]
      rfl
    · rw [splitNl_cons c t h, joinLines_consHead, ih]

theorem splitNl_joinLines (ls : List Str) (h0 : ls ≠ [])
    (h : ∀ l ∈ ls, '\n' ∉ l) : splitNl (joinLines ls) = ls := by
  induction ls with
  | nil => exact absurd rfl h0
  | cons l ls ih =>
    cases ls with
    | nil =>
      simp only [joinLines]
      exact splitNl_of_nlFree l (h l (List.mem_cons_self l []))
    | cons m ms =>
      rw [joinLines_cons l (m :: ms) (by simp)]
      rw [splitNl_append_nl, splitNl_of_nlFree l (h l (List.mem_cons_self l _))]
      rw [ih (by simp) (fun x hx => h x (List.mem_cons_of_mem l hx))]
      rfl

theorem joinLines_append (ls ms : List Str) (h1 : ls ≠ []) (h2 : ms ≠ []) :
    joinLines (ls ++ ms) = joinLines ls ++ '\n' :: joinLines ms := by
  induction ls with
  | nil => exact absurd rfl h1
  | cons l ls ih =>
    cases ls with
    | nil =>
      rw [List.singleton_append, joinLines_cons l ms h2]
      rfl
    | cons x xs =>
      rw [List.cons_append, joinLines_cons l ((x :: xs) ++ ms) (by simp),
        ih (by simp), joinLines_cons l (x :: xs) (by simp)]
      simp

theorem flatLn_cons (l : Str) (ls : List Str) :
    flatLn (l :: ls) = l ++ '\n' :: flatLn ls := rfl

theorem flatLn_append (a b : List Str) :
    flatLn (a ++ b) = flatLn a ++ flatLn b := by
  induction a with
  | nil => rfl
  | cons l a ih => simp [flatLn_cons, ih]

theorem joinLines_concat (ls : List Str) (x : Str) :
    joinLines (ls ++ [x]) = flatLn ls ++ x := by
  induction ls with
  | nil => rfl
  | cons l ls ih =>
    rw [List.cons_append, joinLines_cons l (ls ++ [x]) (by simp), ih]
    simp [flatLn_cons]

theorem flatLn_eq_joinLines (ls : List Str) (h : ls ≠ []) :
    flatLn ls = joinLines ls ++ ['\n'] := by
  induction ls with
  | nil => exact absurd rfl h
  | cons l ls ih =>
    cases ls with
    | nil => rfl
    | cons m ms =>
      rw [flatLn_cons, ih (by simp), joinLines_cons l (m :: ms) (by simp)]
      simp

/-! ### Tilde runs and the line parsers -/

theorem tildeRun_cons_tilde (t : Str) : tildeRun ('~' :: t) = tildeRun t + 1 := by
  simp [tildeRun]

theorem tildeRun_replicate_append (n : Nat) (r : Str) :
    tildeRun (List.replicate n '~' ++ r) = n + tildeRun r := by
  induction n with
  | zero => simp
  | succ n ih =>
    rw [List.replicate_succ, List.cons_append, tildeRun_cons_tilde, ih]
    omega

theorem take_tildeRun (l : Str) :
    l.take (tildeRun l) = List.replicate (tildeRun l) '~' := by
  induction l with
  | nil => rfl
  | cons c t ih =>
    by_cases h : c = '~'
    · subst h
      rw [tildeRun_cons_tilde, List.take_succ_cons, ih, List.replicate_succ]
    · simp [tildeRun, h]

theorem tildeRun_ge_of_take (l : Str) (n : Nat)
    (h : l.take n = List.replicate n '~') : n ≤ tildeRun l := by
  induction n generalizing l with
  | zero => omega
  | succ n ih =>
    cases l with
    | nil => simp [List.replicate_succ] at h
    | cons c t =>
      rw [List.take_succ_cons, List.replicate_succ] at h
      have hc : c = '~' := (List.cons.injEq _ _ _ _ ▸ h).1
      have ht : t.take n = List.replicate n '~' := (List.cons.injEq _ _ _ _ ▸ h).2
      subst hc
      rw [tildeRun_cons_tilde]
      exact Nat.succ_le_succ (ih t ht)

theorem openerLine_none (l : Str) (h : tildeRun l < 3) : openerLine l = none := by
  unfold openerLine
  rw [if_neg (by omega)]

theorem closerLine_none_small (n : Nat) (l : Str) (h3 : 3 ≤ n)
    (h : tildeRun l < 3) : closerLine n l = none := by
  unfold closerLine
  rw [if_neg]
  intro hc
  have := tildeRun_ge_of_take l n hc
  omega

theorem fenceLine_none (l : Str) (h : tildeRun l < 3) : fenceLine l = none := by
  unfold fenceLine
  rw [if_neg (by omega)]

theorem openerLine_run (l : Str) (n : Nat) (lg : Str)
    (h : openerLine l = some (n, lg)) :
    n = tildeRun l ∧ 3 ≤ n ∧ l = List.replicate n '~' ++ l.drop n ∧
      parseTag (l.drop n) = some lg := by
  unfold openerLine at h
  by_cases h3 : 3 ≤ tildeRun l
  · rw [if_pos h3] at h
    cases hp : parseTag (l.drop (tildeRun l)) with
    | none => rw [hp] at h; simp at h
    | some lg2 =>
      rw [hp] at h
      simp only [Option.map_some', Option.some.injEq, Prod.mk.injEq] at h
      obtain ⟨hn, hl⟩ := h
      subst hn
      refine ⟨rfl, h3, ?_, hl ▸ hp⟩
      conv_lhs => rw [← List.take_append_drop (tildeRun l) l]
      rw [take_tildeRun]
  · rw [if_neg h3] at h
    exact absurd h (by simp)

theorem all_space_eq_replicate (l : Str)
    (h : l.all (fun c => decide (c = ' ')) = true) :
    l = List.replicate l.length ' ' := by
  refine List.eq_replicate_of_mem ?_
  intro c hc
  exact of_decide_eq_true (List.all_eq_true.1 h c hc)

theorem closerLine_some (n : Nat) (l : Str) (tr : Nat)
    (h : closerLine n l = some tr) :
    l = List.replicate n '~' ++ List.replicate tr ' ' ∧ n ≤ tildeRun l := by
  unfold closerLine at h
  by_cases h1 : l.take n = List.replicate n '~'
  · rw [if_pos h1] at h
    by_cases h2 : (l.drop n).all (fun c => decide (c = ' ')) = true
    · rw [if_pos h2] at h
      have htr : tr = (l.drop n).length := (Option.some.injEq _ _ ▸ h).symm
      constructor
      · conv_lhs => rw [← List.take_append_drop n l]
        rw [h1, htr, ← all_space_eq_replicate _ h2]
      · exact tildeRun_ge_of_take l n h1
    · rw [if_neg h2] at h
      exact absurd h (by simp)
  · rw [if_neg h1] at h
    exact absurd h (by simp)

theorem closerLine_replicate (n : Nat) :
    closerLine n (List.replicate n '~') = some 0 := by
  unfold closerLine
  rw [if_pos (by rw [List.take_replicate]; simp)]
  rw [List.drop_replicate, Nat.sub_self, List.replicate_zero]
  rfl

/-! ### Search characterization -/

theorem findCloser_cons_closer (n : Nat) (l : Str) (ls : List Str) (tr : Nat)
    (hc : closerLine n l = some tr) :
    findCloser n (l :: ls) = some ([], tr, ls) := by
  rw [findCloser, hc]

theorem findCloser_cons_noCloser (n : Nat) (l : Str) (ls : List Str)
    (hc : closerLine n l = none) :
    findCloser n (l :: ls) =
      (findCloser n ls).map (fun x => (l :: x.1, x.2.1, x.2.2)) := by
  rw [findCloser, hc]

theorem findCloser_decomp (n : Nat) (ls : List Str) (b : List Str) (tr : Nat)
    (suf : List Str) (h : findCloser n ls = some (b, tr, suf)) :
    ls = b ++ (List.replicate n '~' ++ List.replicate tr ' ') :: suf ∧
      ∀ l ∈ b, closerLine n l = none := by
  induction ls generalizing b tr suf with
  | nil => simp [findCloser] at h
  | cons l ls ih =>
    cases hc : closerLine n l with
    | some tr2 =>
      rw [findCloser_cons_closer n l ls tr2 hc] at h
      simp only [Option.some.injEq, Prod.mk.injEq] at h
      obtain ⟨h1, h2, h3⟩ := h
      have hcl := (closerLine_some n l tr2 hc).1
      rw [h2] at hcl
      rw [← h1, ← h3, ← hcl]
      exact ⟨rfl, by simp [← h1]⟩
    | none =>
      rw [findCloser_cons_noCloser n l ls hc] at h
      cases hf : findCloser n ls with
      | none => rw [hf] at h; simp at h
      | some x =>
        rw [hf] at h
        obtain ⟨b2, tr2, suf2⟩ := x
        simp only [Option.map_some', Option.some.injEq, Prod.mk.injEq] at h
        obtain ⟨hb, htr, hsuf⟩ := h
        obtain ⟨hd, hnone⟩ := ih b2 tr2 suf2 hf
        rw [← hb, ← htr, ← hsuf, hd]
        refine ⟨rfl, ?_⟩
        intro x hx
        rcases List.mem_cons.1 hx with hx | hx
        · exact hx ▸ hc
        · exact hnone x hx

theorem findCloser_exact (n : Nat) (body : List Str) (cl : Str) (tr : Nat)
    (suf : List Str) (hb : ∀ l ∈ body, closerLine n l = none)
    (hc : closerLine n cl = some tr) :
    findCloser n (body ++ cl :: suf) = some (body, tr, suf) := by
  induction body with
  | nil =>
    unfold findCloser
    rw [List.nil_append]
    simp [hc]
  | cons l b ih =>
    unfold findCloser
    rw [List.cons_append]
    have hl : closerLine n l = none := hb l (List.mem_cons_self l b)
    simp only [hl]
    rw [ih (fun x hx => hb x (List.mem_cons_of_mem l hx))]
    rfl

theorem searchB_cons_noOpener (l : Str) (ls : List Str) (h : openerLine l = none) :
    searchB (l :: ls) = (searchB ls).map (fun m => { m with pre := l :: m.pre }) := by
  rw [searchB, h]

theorem searchB_cons_opener (l : Str) (ls : List Str) (n : Nat) (lg : Str)
    (b : List Str) (tr : Nat) (suf : List Str)
    (ho : openerLine l = some (n, lg))
    (hf : findCloser n ls = some (b, tr, suf)) :
    searchB (l :: ls) = some ⟨[], n, l.drop n, lg, b, tr, suf⟩ := by
  rw [searchB, ho]
  simp only
  rw [hf]

theorem searchB_cons_opener_noCloser (l : Str) (ls : List Str) (n : Nat) (lg : Str)
    (ho : openerLine l = some (n, lg)) (hf : findCloser n ls = none) :
    searchB (l :: ls) = (searchB ls).map (fun m => { m with pre := l :: m.pre }) := by
  rw [searchB, ho]
  simp only
  rw [hf]

theorem searchB_none_of (ls : List Str) (h : ∀ l ∈ ls, openerLine l = none) :
    searchB ls = none := by
  induction ls with
  | nil => rfl
  | cons l ls ih =>
    rw [searchB_cons_noOpener l ls (h l (List.mem_cons_self l ls)),
      ih (fun x hx => h x (List.mem_cons_of_mem l hx))]
    rfl

theorem searchB_append_pre (A ls : List Str)
    (h : ∀ l ∈ A, openerLine l = none) :
    searchB (A ++ ls) = (searchB ls).map (fun m => { m with pre := A ++ m.pre }) := by
  induction A with
  | nil =>
    rw [List.nil_append]
    cases hs : searchB ls with
    | none => rfl
    | some m => rfl
  | cons a A ih =>
    rw [List.cons_append,
      searchB_cons_noOpener a (A ++ ls) (h a (List.mem_cons_self a A)),
      ih (fun x hx => h x (List.mem_cons_of_mem a hx))]
    cases hs : searchB ls with
    | none => rfl
    | some m => rfl

theorem searchB_exact (A : List Str) (op : Str) (n : Nat) (lg : Str)
    (body : List Str) (cl : Str) (tr : Nat) (suf : List Str)
    (hA : ∀ l ∈ A, openerLine l = none)
    (ho : openerLine op = some (n, lg))
    (hb : ∀ l ∈ body, closerLine n l = none)
    (hc : closerLine n cl = some tr) :
    searchB (A ++ op :: body ++ cl :: suf) =
      some ⟨A, n, op.drop n, lg, body, tr, suf⟩ := by
  have e : A ++ op :: body ++ cl :: suf = A ++ (op :: (body ++ cl :: suf)) := by simp
  rw [e, searchB_append_pre A _ hA,
    searchB_cons_opener op _ n lg body tr suf ho
      (findCloser_exact n body cl tr suf hb hc)]
  simp

theorem decomp_pre_cons (l : Str) (m : FMatch) :
    ({ m with pre := l :: m.pre } : FMatch).pre ++
        openerOf { m with pre := l :: m.pre } ::
          ({ m with pre := l :: m.pre } : FMatch).body ++
            closerOf { m with pre := l :: m.pre } ::
              ({ m with pre := l :: m.pre } : FMatch).suf =
      l :: (m.pre ++ openerOf m :: m.body ++ closerOf m :: m.suf) := rfl

theorem searchB_decomp (ls : List Str) (m : FMatch) (h : searchB ls = some m) :
    ls = m.pre ++ openerOf m :: m.body ++ closerOf m :: m.suf ∧
      3 ≤ m.fence ∧ openerLine (openerOf m) = some (m.fence, m.lang) ∧
      (∀ l ∈ m.body, closerLine m.fence l = none) := by
  induction ls generalizing m with
  | nil => simp [searchB] at h
  | cons l ls ih =>
    cases ho : openerLine l with
    | some nl =>
      obtain ⟨n, lg⟩ := nl
      cases hf : findCloser n ls with
      | some bts =>
        obtain ⟨b, tr, suf⟩ := bts
        rw [searchB_cons_opener l ls n lg b tr suf ho hf] at h
        simp only [Option.some.injEq] at h
        subst h
        obtain ⟨hn, h3, hl, hp⟩ := openerLine_run l n lg ho
        obtain ⟨hd, hnone⟩ := findCloser_decomp n ls b tr suf hf
        refine ⟨?_, h3, ?_, hnone⟩
        · simp only [openerOf, closerOf]
          rw [← hl, hd]
          rfl
        · simp only [openerOf]
          rw [← hl]
          exact ho
      | none =>
        rw [searchB_cons_opener_noCloser l ls n lg ho hf] at h
        cases hs : searchB ls with
        | none => rw [hs] at h; simp at h
        | some m2 =>
          rw [hs] at h
          simp only [Option.map_some', Option.some.injEq] at h
          subst h
          obtain ⟨hd, h3, hop, hcl⟩ := ih m2 hs
          exact ⟨by rw [decomp_pre_cons l m2, ← hd], h3, hop, hcl⟩
    | none =>
      rw [searchB_cons_noOpener l ls ho] at h
      cases hs : searchB ls with
      | none => rw [hs] at h; simp at h
      | some m2 =>
        rw [hs] at h
        simp only [Option.map_some', Option.some.injEq] at h
        subst h
        obtain ⟨hd, h3, hop, hcl⟩ := ih m2 hs
        exact ⟨by rw [decomp_pre_cons l m2, ← hd], h3, hop, hcl⟩

/-! ### Rendered blocks -/

theorem isWordChar_facts (c : Char) (h : isWordChar c = true) :
    c ≠ ' ' ∧ c ≠ '{' ∧ c ≠ '.' ∧ c ≠ '}' ∧ c ≠ '~' ∧ c ≠ '\n' := by
  refine ⟨?_, ?_, ?_, ?_, ?_, ?_⟩ <;> intro he <;> subst he <;> revert h <;> decide

theorem tildeRun_tagOf (lang : Str) : tildeRun (tagOf lang) = 0 := by
  unfold tagOf
  by_cases h : lang = []
  · rw [if_pos h]
    rfl
  · rw [if_neg h]
    simp [tildeRun]

theorem takeWhile_of_all (p : Char → Bool) (l : Str)
    (h : ∀ c ∈ l, p c = true) : l.takeWhile p = l := by
  induction l with
  | nil => rfl
  | cons c t ih =>
    rw [List.takeWhile_cons, if_pos (h c (List.mem_cons_self c t))]
    rw [ih (fun x hx => h x (List.mem_cons_of_mem c hx))]

theorem dropWhile_of_all (p : Char → Bool) (l : Str)
    (h : ∀ c ∈ l, p c = true) : l.dropWhile p = [] := by
  induction l with
  | nil => rfl
  | cons c t ih =>
    rw [List.dropWhile_cons, if_pos (h c (List.mem_cons_self c t))]
    exact ih (fun x hx => h x (List.mem_cons_of_mem c hx))

theorem parseTag_tagOf (lang : Str) (h : ∀ c ∈ lang, isWordChar c = true) :
    parseTag (tagOf lang) = some lang := by
  unfold tagOf
  by_cases hl : lang = []
  · rw [if_pos hl, hl]
    rfl
  · rw [if_neg hl]
    obtain ⟨c, rest, rfl⟩ := List.exists_cons_of_ne_nil hl
    have hc := h c (List.mem_cons_self c rest)
    obtain ⟨hsp, hbr, hdot, hrb, _, _⟩ := isWordChar_facts c hc
    have e1 : dropSp (' ' :: c :: rest) = c :: rest := by
      unfold dropSp
      rw [List.dropWhile_cons, if_pos (by simp), List.dropWhile_cons,
        if_neg (by simp [hsp])]
    have e2 : stripOpt '{' (c :: rest) = c :: rest := by
      simp [stripOpt, hbr]
    have e3 : stripOpt '.' (c :: rest) = c :: rest := by
      simp [stripOpt, hdot]
    simp only [parseTag]
    rw [e1, e2, e3, takeWhile_of_all isWordChar (c :: rest) h,
      dropWhile_of_all isWordChar (c :: rest) h]
    rfl

theorem openerLine_render (n : Nat) (lang : Str) (h3 : 3 ≤ n)
    (h : ∀ c ∈ lang, isWordChar c = true) :
    openerLine (List.replicate n '~' ++ tagOf lang) = some (n, lang) := by
  have hrun : tildeRun (List.replicate n '~' ++ tagOf lang) = n := by
    rw [tildeRun_replicate_append, tildeRun_tagOf]
    omega
  unfold openerLine
  rw [hrun, if_pos h3]
  have hdrop : (List.replicate n '~' ++ tagOf lang).drop n = tagOf lang := by
    have := List.drop_left (List.replicate n '~') (tagOf lang)
    rwa [List.length_replicate] at this
  rw [hdrop, parseTag_tagOf lang h]
  rfl

theorem fenceLine_replicate (n : Nat) (h3 : 3 ≤ n) :
    fenceLine (List.replicate n '~') = some n := by
  have hrun : tildeRun (List.replicate n '~') = n := by
    have := tildeRun_replicate_append n []
    simpa using this
  unfold fenceLine
  rw [hrun, if_pos h3]
  have hdrop : (List.replicate n '~').drop n = [] := by
    rw [List.drop_replicate, Nat.sub_self, List.replicate_zero]
  rw [hdrop]
  rfl

/-! ### Counting fence markers -/

theorem countFence_append (a b : List Str) :
    countFence (a ++ b) = countFence a + countFence b := by
  unfold countFence
  exact List.countP_append _ a b

theorem countFence_cons (l : Str) (ls : List Str) :
    countFence (l :: ls) =
      countFence ls + (if 3 ≤ tildeRun l then 1 else 0) := by
  unfold countFence
  rw [List.countP_cons]
  by_cases h : 3 ≤ tildeRun l
  · rw [if_pos h, if_pos (by simpa using h)]
  · rw [if_neg h, if_neg (by simpa using h)]

theorem countFence_zero (ls : List Str) (h : ∀ l ∈ ls, tildeRun l < 3) :
    countFence ls = 0 := by
  induction ls with
  | nil => rfl
  | cons l ls ih =>
    rw [countFence_cons, if_neg (by have := h l (List.mem_cons_self l ls); omega),
      ih (fun x hx => h x (List.mem_cons_of_mem l hx))]

/-! ### Lines of the quote replacement -/

theorem quotePara_lines (p : Str) :
    ∀ l ∈ splitNl (quotePara p), tildeRun l < 3 := by
  intro l hl
  unfold quotePara at hl
  set L := ((splitNl p).filter (fun l => l ≠ [])).map (fun l => '>' :: ' ' :: l) with hL
  by_cases h0 : L = []
  · rw [h0] at hl
    simp only [joinLines] at hl
    simp only [splitNl] at hl
    rcases List.mem_singleton.1 hl with rfl
    decide
  · have hfree : ∀ x ∈ L, '\n' ∉ x := by
      intro x hx
      rw [hL] at hx
      obtain ⟨y, hy, rfl⟩ := List.mem_map.1 hx
      have hy2 := List.mem_of_mem_filter hy
      have := nlFree_splitNl p y hy2
      intro hm
      rcases List.mem_cons.1 hm with hm | hm
      · exact absurd hm.symm (by decide)
      rcases List.mem_cons.1 hm with hm | hm
      · exact absurd hm.symm (by decide)
      · exact this hm
    rw [splitNl_joinLines L h0 hfree] at hl
    rw [hL] at hl
    obtain ⟨y, _, rfl⟩ := List.mem_map.1 hl
    simp [tildeRun]

theorem join2Nl_lines (ps : List Str)
    (h : ∀ p ∈ ps, ∀ l ∈ splitNl p, tildeRun l < 3) :
    ∀ l ∈ splitNl (join2Nl ps), tildeRun l < 3 := by
  induction ps with
  | nil =>
    intro l hl
    simp only [join2Nl, splitNl] at hl
    rcases List.mem_singleton.1 hl with rfl
    decide
  | cons p ps ih =>
    cases ps with
    | nil =>
      intro l hl
      exact h p (List.mem_cons_self p []) l hl
    | cons q qs =>
      intro l hl
      have e : join2Nl (p :: q :: qs) = p ++ '\n' :: ('\n' :: join2Nl (q :: qs)) := rfl
      rw [e, splitNl_append_nl, splitNl_cons_nl] at hl
      rcases List.mem_append.1 hl with hl | hl
      · exact h p (List.mem_cons_self p _) l hl
      rcases List.mem_cons.1 hl with rfl | hl
      · decide
      · exact ih (fun x hx => h x (List.mem_cons_of_mem p hx)) l hl

theorem quoteRepl_lines (b : Str) :
    ∀ l ∈ splitNl (quoteRepl b), tildeRun l < 3 := by
  unfold quoteRepl
  refine join2Nl_lines _ ?_
  intro p hp
  obtain ⟨y, _, rfl⟩ := List.mem_map.1 hp
  exact quotePara_lines y

/-! ### The substitution step -/

theorem processFence_quote (cfg : Cfg) (m : FMatch) (st : List Str)
    (h : isQuoteTag m.lang = true) :
    processFence cfg m st =
      (m.pre ++ [[]] ++ splitNl (quoteRepl (flatLn m.body)) ++ [[]] ++ m.suf, st) := by
  unfold processFence
  rw [if_pos h]

theorem processFence_store (cfg : Cfg) (m : FMatch) (st : List Str)
    (h : isQuoteTag m.lang = false) :
    processFence cfg m st =
      (m.pre ++ [[]] ++ splitNl (cfg.ph st.length) ++ [[]] ++ m.suf,
        st ++ [match cfg.hilite with
               | some hi => hi (flatLn m.body) (if m.lang = [] then none else some m.lang)
               | none =>
                 codeWrap (if m.lang = [] then [] else langTag m.lang)
                   (escape (flatLn m.body))]) := by
  unfold processFence
  rw [if_neg (by simp [h])]

theorem countFence_processFence (cfg : Cfg) (m : FMatch) (st : List Str)
    (hph : ∀ i, ∀ l ∈ splitNl (cfg.ph i), tildeRun l < 3) :
    countFence (processFence cfg m st).1 = countFence m.pre + countFence m.suf := by
  by_cases hq : isQuoteTag m.lang = true
  · rw [processFence_quote cfg m st hq]
    simp only [countFence_append]
    rw [countFence_zero (splitNl (quoteRepl (flatLn m.body))) (quoteRepl_lines _)]
    have h1 : countFence [([] : Str)] = 0 := by decide
    rw [h1]
    omega
  · rw [processFence_store cfg m st (Bool.not_eq_true _ ▸ hq)]
    simp only [countFence_append]
    rw [countFence_zero (splitNl (cfg.ph st.length)) (hph st.length)]
    have h1 : countFence [([] : Str)] = 0 := by decide
    rw [h1]
    omega

theorem countFence_decrease (cfg : Cfg) (ls : List Str) (m : FMatch)
    (st : List Str) (h : searchB ls = some m)
    (hph : ∀ i, ∀ l ∈ splitNl (cfg.ph i), tildeRun l < 3) :
    countFence (processFence cfg m st).1 < countFence ls := by
  obtain ⟨hd, h3, _, _⟩ := searchB_decomp ls m h
  rw [countFence_processFence cfg m st hph, hd]
  have hop : 3 ≤ tildeRun (openerOf m) := by
    unfold openerOf
    rw [tildeRun_replicate_append]
    omega
  have hcl : 3 ≤ tildeRun (closerOf m) := by
    unfold closerOf
    rw [tildeRun_replicate_append]
    omega
  rw [countFence_append, countFence_cons, countFence_append, countFence_cons,
    if_pos hop, if_pos hcl]
  omega

/-! ### The main loop -/

theorem mainLoop_none (cfg : Cfg) (fuel : Nat) (ls : List Str) (e : Nat)
    (st : List Str) (h : searchB ls = none) :
    mainLoop cfg (fuel + 1) ls e st = (ls, e, st) := by
  rw [mainLoop, h]

theorem mainLoop_some (cfg : Cfg) (fuel : Nat) (ls : List Str) (e : Nat)
    (st : List Str) (m : FMatch) (h : searchB ls = some m) :
    mainLoop cfg (fuel + 1) ls e st =
      mainLoop cfg fuel (processFence cfg m st).1 (matchEnd m)
        (processFence cfg m st).2 := by
  rw [mainLoop, h]

theorem mainLoop_fuel (cfg : Cfg)
    (hph : ∀ i, ∀ l ∈ splitNl (cfg.ph i), tildeRun l < 3) :
    ∀ fuel ls e st, countFence ls < fuel →
      searchB (mainLoop cfg fuel ls e st).1 = none ∧
        ∀ k, mainLoop cfg (fuel + k) ls e st = mainLoop cfg fuel ls e st := by
  intro fuel
  induction fuel with
  | zero =>
    intro ls e st hc
    omega
  | succ f ih =>
    intro ls e st hc
    cases hs : searchB ls with
    | none =>
      rw [mainLoop_none cfg f ls e st hs]
      refine ⟨hs, ?_⟩
      intro k
      have e1 : f + 1 + k = (f + k) + 1 := by omega
      rw [e1, mainLoop_none cfg (f + k) ls e st hs]
    | some m =>
      have hlt := countFence_decrease cfg ls m st hs hph
      rw [mainLoop_some cfg f ls e st m hs]
      obtain ⟨h1, h2⟩ := ih (processFence cfg m st).1 (matchEnd m)
        (processFence cfg m st).2 (by omega)
      refine ⟨h1, ?_⟩
      intro k
      have e1 : f + 1 + k = (f + k) + 1 := by omega
      rw [e1, mainLoop_some cfg (f + k) ls e st m hs]
      exact h2 k

/-! ### The dangling-fence search -/

theorem searchFenceFrom_none (ls : List Str)
    (h : ∀ l ∈ ls, fenceLine l = none) :
    ∀ pos cur, searchFenceFrom pos cur ls = none := by
  induction ls with
  | nil =>
    intro pos cur
    rfl
  | cons l ls ih =>
    intro pos cur
    rw [searchFenceFrom]
    by_cases hp : pos ≤ cur
    · rw [if_pos hp, h l (List.mem_cons_self l ls)]
      exact ih (fun x hx => h x (List.mem_cons_of_mem l hx)) pos _
    · rw [if_neg hp]
      exact ih (fun x hx => h x (List.mem_cons_of_mem l hx)) pos _

/-! ### Well-formed documents -/

theorem docLines_cons (i : Item) (rest : List Item) :
    docLines (i :: rest) = itemLines i ++ docLines rest := rfl

theorem numBlocks_cons_plain (l : Str) (rest : List Item) :
    numBlocks (Item.plain l :: rest) = numBlocks rest := by
  unfold numBlocks
  rw [List.countP_cons]
  simp

theorem numBlocks_cons_block (n : Nat) (lang : Str) (body : List Str)
    (rest : List Item) :
    numBlocks (Item.block n lang body :: rest) = numBlocks rest + 1 := by
  unfold numBlocks
  rw [List.countP_cons]
  simp

theorem docLines_ne_nil (doc : List Item) (h : doc ≠ []) : docLines doc ≠ [] := by
  cases doc with
  | nil => exact absurd rfl h
  | cons i rest =>
    rw [docLines_cons]
    cases i with
    | plain l => simp [itemLines]
    | block n lang body => simp [itemLines]

theorem nlFree_opener (n : Nat) (lang : Str)
    (hw : ∀ c ∈ lang, isWordChar c = true) :
    '\n' ∉ List.replicate n '~' ++ tagOf lang := by
  intro hm
  rcases List.mem_append.1 hm with hm | hm
  · exact absurd (List.eq_of_mem_replicate hm) (by decide)
  · unfold tagOf at hm
    by_cases hl : lang = []
    · rw [if_pos hl] at hm
      exact absurd hm (List.not_mem_nil _)
    · rw [if_neg hl] at hm
      rcases List.mem_cons.1 hm with hm | hm
      · exact absurd hm (by decide)
      · have := hw '\n' hm
        exact absurd this (by decide)

theorem nlFree_docLines (doc : List Item) (hwf : ∀ i ∈ doc, itemWF i) :
    ∀ l ∈ docLines doc, '\n' ∉ l := by
  induction doc with
  | nil =>
    intro l hl
    exact absurd hl (List.not_mem_nil l)
  | cons i rest ih =>
    intro l hl
    rw [docLines_cons] at hl
    rcases List.mem_append.1 hl with hl | hl
    · cases i with
      | plain p =>
        rcases List.mem_singleton.1 hl with rfl
        exact (hwf (Item.plain l) (List.mem_cons_self _ _)).2
      | block n lang body =>
        obtain ⟨h3, hw, hb⟩ := hwf (Item.block n lang body) (List.mem_cons_self _ _)
        simp only [itemLines] at hl
        rcases List.mem_cons.1 hl with rfl | hl
        · exact nlFree_opener n lang hw
        rcases List.mem_append.1 hl with hl | hl
        · exact (hb l hl).2
        · rcases List.mem_singleton.1 hl with rfl
          intro hm
          exact absurd (List.eq_of_mem_replicate hm) (by decide)
    · exact ih (fun x hx => hwf x (List.mem_cons_of_mem i hx)) l hl

theorem numBlocks_le_countFence (doc : List Item) (hwf : ∀ i ∈ doc, itemWF i) :
    numBlocks doc ≤ countFence (docLines doc) := by
  induction doc with
  | nil => simp [numBlocks, docLines, countFence]
  | cons i rest ih =>
    rw [docLines_cons, countFence_append]
    have hr := ih (fun x hx => hwf x (List.mem_cons_of_mem i hx))
    cases i with
    | plain l =>
      rw [numBlocks_cons_plain]
      omega
    | block n lang body =>
      obtain ⟨h3, hw, _⟩ := hwf (Item.block n lang body) (List.mem_cons_self _ _)
      rw [numBlocks_cons_block]
      have hop : 3 ≤ tildeRun (List.replicate n '~' ++ tagOf lang) := by
        rw [tildeRun_replicate_append, tildeRun_tagOf]
        omega
      have : 1 ≤ countFence (itemLines (Item.block n lang body)) := by
        simp only [itemLines]
        rw [countFence_append, countFence_cons, if_pos hop]
        omega
      omega

theorem itemOut_fenceFree (cfg : Cfg) (hph : PhOK cfg) (k : Nat) (i : Item)
    (hwf : itemWF i) : ∀ l ∈ itemOut cfg k i, tildeRun l < 3 := by
  intro l hl
  cases i with
  | plain p =>
    rcases List.mem_singleton.1 hl with rfl
    exact hwf.1
  | block n lang body =>
    simp only [itemOut] at hl
    by_cases hq : isQuoteTag lang = true
    · rw [if_pos hq] at hl
      rcases List.mem_cons.1 hl with rfl | hl
      · decide
      rcases List.mem_append.1 hl with hl | hl
      · exact quoteRepl_lines (flatLn body) l hl
      · rcases List.mem_singleton.1 hl with rfl
        decide
    · rw [if_neg hq] at hl
      rcases List.mem_cons.1 hl with rfl | hl
      · decide
      rcases List.mem_append.1 hl with hl | hl
      · exact hph k l hl
      · rcases List.mem_singleton.1 hl with rfl
        decide

theorem docOut_fenceFree (cfg : Cfg) (hph : PhOK cfg) :
    ∀ doc k, (∀ i ∈ doc, itemWF i) →
      ∀ l ∈ (docOut cfg k doc).1, tildeRun l < 3 := by
  intro doc
  induction doc with
  | nil =>
    intro k _ l hl
    exact absurd hl (List.not_mem_nil l)
  | cons i rest ih =>
    intro k hwf l hl
    simp only [docOut] at hl
    rcases List.mem_append.1 hl with hl | hl
    · exact itemOut_fenceFree cfg hph k i (hwf i (List.mem_cons_self _ _)) l hl
    · exact ih _ (fun x hx => hwf x (List.mem_cons_of_mem i hx)) l hl

theorem docOut_stash_length (cfg : Cfg) (doc : List Item)
    (h : ∀ i ∈ doc, isQuoteItem i = false) :
    ∀ k, (docOut cfg k doc).2.length = numBlocks doc := by
  induction doc with
  | nil =>
    intro k
    simp [docOut, numBlocks]
  | cons i rest ih =>
    intro k
    simp only [docOut, List.length_append]
    rw [ih (fun x hx => h x (List.mem_cons_of_mem i hx))]
    cases i with
    | plain l =>
      rw [numBlocks_cons_plain]
      simp [blockMarkup]
    | block n lang body =>
      have hq := h (Item.block n lang body) (List.mem_cons_self _ _)
      simp only [isQuoteItem] at hq
      rw [numBlocks_cons_block]
      simp [blockMarkup, hq]
      omega

/-- The main loop consumes a well-formed document block by block, in input
order, turning each block into a placeholder (or blockquote) framed by blank
lines and appending the block's markup to the stash. -/
theorem mainLoop_doc (cfg : Cfg) (hph : PhOK cfg) :
    ∀ (doc : List Item) (A : List Str) (e : Nat) (st : List Str) (fuel : Nat),
      (∀ i ∈ doc, itemWF i) → (∀ l ∈ A, tildeRun l < 3) →
      numBlocks doc < fuel →
      ∃ e2, mainLoop cfg fuel (A ++ docLines doc) e st =
        (A ++ (docOut cfg st.length doc).1, e2, st ++ (docOut cfg st.length doc).2) := by
  intro doc
  induction doc with
  | nil =>
    intro A e st fuel _ hA hfuel
    cases fuel with
    | zero => omega
    | succ f =>
      refine ⟨e, ?_⟩
      have hnone : searchB (A ++ docLines []) = none := by
        refine searchB_none_of _ ?_
        intro l hl
        simp only [docLines, List.foldr_nil, List.append_nil] at hl
        exact openerLine_none l (hA l hl)
      rw [mainLoop_none cfg f _ e st hnone]
      simp [docOut, docLines]
  | cons i rest ih =>
    intro A e st fuel hwf hA hfuel
    cases i with
    | plain l =>
      have hl : lineOK l := hwf (Item.plain l) (List.mem_cons_self _ _)
      have e1 : A ++ docLines (Item.plain l :: rest) = (A ++ [l]) ++ docLines rest := by
        rw [docLines_cons]
        simp [itemLines]
      have hA2 : ∀ x ∈ A ++ [l], tildeRun x < 3 := by
        intro x hx
        rcases List.mem_append.1 hx with hx | hx
        · exact hA x hx
        · rcases List.mem_singleton.1 hx with rfl
          exact hl.1
      have hfuel2 : numBlocks rest < fuel := by
        rw [numBlocks_cons_plain] at hfuel
        exact hfuel
      obtain ⟨e2, he⟩ := ih (A ++ [l]) e st fuel
        (fun x hx => hwf x (List.mem_cons_of_mem _ hx)) hA2 hfuel2
      refine ⟨e2, ?_⟩
      rw [e1, he]
      simp [docOut, itemOut, blockMarkup]
    | block n lang body =>
      obtain ⟨h3, hw, hb⟩ := hwf (Item.block n lang body) (List.mem_cons_self _ _)
      have hfuel1 : 1 ≤ fuel := by
        rw [numBlocks_cons_block] at hfuel
        omega
      obtain ⟨f, rfl⟩ : ∃ f, fuel = f + 1 :=
        ⟨fuel - 1, by omega⟩
      have e1 : A ++ docLines (Item.block n lang body :: rest) =
          A ++ (List.replicate n '~' ++ tagOf lang) :: body ++
            List.replicate n '~' :: docLines rest := by
        rw [docLines_cons]
        simp [itemLines]
      have hAop : ∀ x ∈ A, openerLine x = none :=
        fun x hx => openerLine_none x (hA x hx)
      have hbcl : ∀ x ∈ body, closerLine n x = none :=
        fun x hx => closerLine_none_small n x h3 (hb x hx).1
      have hsearch : searchB (A ++ (List.replicate n '~' ++ tagOf lang) :: body ++
          List.replicate n '~' :: docLines rest) =
          some ⟨A, n, (List.replicate n '~' ++ tagOf lang).drop n, lang, body, 0,
            docLines rest⟩ :=
        searchB_exact A _ n lang body _ 0 _ hAop
          (openerLine_render n lang h3 hw) hbcl (closerLine_replicate n)
      rw [e1, mainLoop_some cfg f _ e st _ hsearch]
      by_cases hq : isQuoteTag lang = true
      · rw [processFence_quote cfg _ st hq]
        simp only
        have e2 : A ++ [[]] ++ splitNl (quoteRepl (flatLn body)) ++ [[]] ++
            docLines rest =
            (A ++ ([] :: splitNl (quoteRepl (flatLn body)) ++ [[]])) ++
              docLines rest := by
          simp
        rw [e2]
        have hA3 : ∀ x ∈ A ++ ([] :: splitNl (quoteRepl (flatLn body)) ++ [[]]),
            tildeRun x < 3 := by
          intro x hx
          rcases List.mem_append.1 hx with hx | hx
          · exact hA x hx
          rcases List.mem_cons.1 hx with rfl | hx
          · decide
          rcases List.mem_append.1 hx with hx | hx
          · exact quoteRepl_lines (flatLn body) x hx
          · rcases List.mem_singleton.1 hx with rfl
            decide
        have hfuel3 : numBlocks rest < f := by
          rw [numBlocks_cons_block] at hfuel
          omega
        obtain ⟨e3, he⟩ := ih (A ++ ([] :: splitNl (quoteRepl (flatLn body)) ++ [[]]))
          (matchEnd _) st f (fun x hx => hwf x (List.mem_cons_of_mem _ hx)) hA3 hfuel3
        refine ⟨e3, ?_⟩
        rw [he]
        simp [docOut, itemOut, blockMarkup, hq]
      · have hqf : isQuoteTag lang = false := Bool.not_eq_true _ ▸ hq
        rw [processFence_store cfg _ st hqf]
        simp only
        have e2 : A ++ [[]] ++ splitNl (cfg.ph st.length) ++ [[]] ++ docLines rest =
            (A ++ ([] :: splitNl (cfg.ph st.length) ++ [[]])) ++ docLines rest := by
          simp
        rw [e2]
        have hA3 : ∀ x ∈ A ++ ([] :: splitNl (cfg.ph st.length) ++ [[]]),
            tildeRun x < 3 := by
          intro x hx
          rcases List.mem_append.1 hx with hx | hx
          · exact hA x hx
          rcases List.mem_cons.1 hx with rfl | hx
          · decide
          rcases List.mem_append.1 hx with hx | hx
          · exact hph st.length x hx
          · rcases List.mem_singleton.1 hx with rfl
            decide
        have hfuel3 : numBlocks rest < f := by
          rw [numBlocks_cons_block] at hfuel
          omega
        set code := (match cfg.hilite with
          | some hi => hi (flatLn body) (if lang = [] then none else some lang)
          | none =>
            codeWrap (if lang = [] then [] else langTag lang)
              (escape (flatLn body))) with hcode
        obtain ⟨e3, he⟩ := ih (A ++ ([] :: splitNl (cfg.ph st.length) ++ [[]]))
          (matchEnd _) (st ++ [code]) f
          (fun x hx => hwf x (List.mem_cons_of_mem _ hx)) hA3 hfuel3
        refine ⟨e3, ?_⟩
        rw [he]
        simp [docOut, itemOut, blockMarkup, hqf, ← hcode, List.length_append]

/-! ### The full pass on a well-formed document -/

theorem run_doc (cfg : Cfg) (doc : List Item) (hwf : docWF doc) (hph : PhOK cfg) :
    run cfg (docLines doc) = docOut cfg 0 doc := by
  obtain ⟨hne, hitems⟩ := hwf
  have hsplit : splitNl (joinLines (docLines doc)) = docLines doc :=
    splitNl_joinLines (docLines doc) (docLines_ne_nil doc hne)
      (nlFree_docLines doc hitems)
  have hfuel : numBlocks doc < countFence (docLines doc) + 1 := by
    have := numBlocks_le_countFence doc hitems
    omega
  obtain ⟨e2, hloop⟩ := mainLoop_doc cfg hph doc [] 0 []
    (countFence (docLines doc) + 1) hitems (by intro l hl; exact absurd hl (List.not_mem_nil l))
    hfuel
  rw [List.nil_append] at hloop
  have hout1 : ∀ l ∈ (docOut cfg 0 doc).1, tildeRun l < 3 := by
    have := docOut_fenceFree cfg hph doc 0 hitems
    simpa using this
  have hfree : ∀ l ∈ (docOut cfg 0 doc).1, fenceLine l = none :=
    fun l hl => fenceLine_none l (hout1 l hl)
  simp only [run, hsplit]
  rw [hloop]
  simp only [List.nil_append, List.length_nil]
  rw [fixup, searchFenceFrom_none (docOut cfg 0 doc).1 hfree e2 0]

/-! ### Further utilities for the fix-up stage -/

theorem joinLines_flat (P Q : List Str) (hQ : Q ≠ []) :
    joinLines (P ++ Q) = flatLn P ++ joinLines Q := by
  induction P with
  | nil => rfl
  | cons p P ih =>
    rw [List.cons_append, joinLines_cons p (P ++ Q) (by simp [hQ]), ih,
      flatLn_cons]
    simp

theorem searchFenceFrom_sound (ls : List Str) :
    ∀ pos cur fr, searchFenceFrom pos cur ls = some fr →
      ∃ l ∈ ls, fenceLine l = some fr := by
  induction ls with
  | nil =>
    intro pos cur fr h
    simp [searchFenceFrom] at h
  | cons l ls ih =>
    intro pos cur fr h
    rw [searchFenceFrom] at h
    by_cases hp : pos ≤ cur
    · rw [if_pos hp] at h
      cases hf : fenceLine l with
      | some n =>
        rw [hf] at h
        simp only [Option.some.injEq] at h
        exact ⟨l, List.mem_cons_self l ls, h ▸ hf⟩
      | none =>
        rw [hf] at h
        obtain ⟨x, hx, hfx⟩ := ih pos _ fr h
        exact ⟨x, List.mem_cons_of_mem l hx, hfx⟩
    · rw [if_neg hp] at h
      obtain ⟨x, hx, hfx⟩ := ih pos _ fr h
      exact ⟨x, List.mem_cons_of_mem l hx, hfx⟩

theorem fenceLine_some (l : Str) (fr : Nat) (h : fenceLine l = some fr) :
    fr = tildeRun l ∧ 3 ≤ fr ∧ fenceTagStrict (l.drop fr) = true := by
  unfold fenceLine at h
  by_cases h3 : 3 ≤ tildeRun l
  · rw [if_pos h3] at h
    by_cases hs : fenceTagStrict (l.drop (tildeRun l)) = true
    · rw [if_pos hs] at h
      have : fr = tildeRun l := (Option.some.injEq _ _ ▸ h).symm
      exact ⟨this, this ▸ h3, this ▸ hs⟩
    · rw [if_neg hs] at h
      exact absurd h (by simp)
  · rw [if_neg h3] at h
    exact absurd h (by simp)

theorem parseTag_of_strict (s : Str) (h : fenceTagStrict s = true) :
    parseTag s =
      some ((stripOpt '.' (stripOpt '{' (dropSp s))).takeWhile isWordChar) := by
  simp only [fenceTagStrict, decide_eq_true_eq] at h
  simp only [parseTag]
  rw [h]
  rfl

theorem openerLine_of_fenceLine (l : Str) (fr : Nat)
    (h : fenceLine l = some fr) : ∃ lg, openerLine l = some (fr, lg) := by
  obtain ⟨heq, h3, hs⟩ := fenceLine_some l fr h
  refine ⟨(stripOpt '.' (stripOpt '{' (dropSp (l.drop fr)))).takeWhile isWordChar, ?_⟩
  unfold openerLine
  rw [← heq, if_pos h3, parseTag_of_strict (l.drop fr) hs]
  rfl

theorem findCloser_ne_none (n : Nat) (Y : List Str) (cl : Str) (tr : Nat)
    (hcl : cl ∈ Y) (hc : closerLine n cl = some tr) :
    findCloser n Y ≠ none := by
  induction Y with
  | nil => exact absurd hcl (List.not_mem_nil cl)
  | cons y Y ih =>
    cases hy : closerLine n y with
    | some tr2 =>
      rw [findCloser_cons_closer n y Y tr2 hy]
      simp
    | none =>
      rw [findCloser_cons_noCloser n y Y hy]
      rcases List.mem_cons.1 hcl with rfl | hcl
      · exact absurd hc (hy ▸ by simp)
      · intro hcon
        exact ih hcl (by
          cases hf : findCloser n Y with
          | none => rfl
          | some x => rw [hf] at hcon; simp at hcon)

theorem searchB_ne_none (X : List Str) (l : Str) (Y : List Str) (n : Nat)
    (lg : Str) (cl : Str) (tr : Nat)
    (ho : openerLine l = some (n, lg)) (hcl : cl ∈ Y)
    (hc : closerLine n cl = some tr) :
    searchB (X ++ l :: Y) ≠ none := by
  induction X with
  | nil =>
    rw [List.nil_append]
    cases hf : findCloser n Y with
    | none => exact absurd hf (findCloser_ne_none n Y cl tr hcl hc)
    | some bts =>
      obtain ⟨b, tr2, suf⟩ := bts
      rw [searchB_cons_opener l Y n lg b tr2 suf ho hf]
      simp
  | cons x X ih =>
    rw [List.cons_append]
    cases hox : openerLine x with
    | some nlx =>
      obtain ⟨nx, lgx⟩ := nlx
      cases hfx : findCloser nx (X ++ l :: Y) with
      | some bts =>
        obtain ⟨b, tr2, suf⟩ := bts
        rw [searchB_cons_opener x (X ++ l :: Y) nx lgx b tr2 suf hox hfx]
        simp
      | none =>
        rw [searchB_cons_opener_noCloser x (X ++ l :: Y) nx lgx hox hfx]
        intro hcon
        refine ih ?_
        cases hs : searchB (X ++ l :: Y) with
        | none => rfl
        | some m => rw [hs] at hcon; simp at hcon
    | none =>
      rw [searchB_cons_noOpener x (X ++ l :: Y) hox]
      intro hcon
      refine ih ?_
      cases hs : searchB (X ++ l :: Y) with
      | none => rfl
      | some m => rw [hs] at hcon; simp at hcon

theorem searchB_singleton (x : Str) : searchB [x] = none := by
  cases ho : openerLine x with
  | some nl =>
    obtain ⟨n, lg⟩ := nl
    rw [searchB, ho]
    rfl
  | none =>
    rw [searchB, ho]
    rfl

theorem ends2nl_concat (t : Str) :
    ends2nl (t ++ '\n' :: '\n' :: []) = true := by
  unfold ends2nl
  rw [List.reverse_append]
  rfl

theorem ends2nl_false_of_last (t : Str) (c : Char) (r : Str)
    (h : t.reverse = c :: r) (hc : c ≠ '\n') : ends2nl t = false := by
  unfold ends2nl
  rw [h]
  cases r with
  | nil => rfl
  | cons d r => simp [hc]

/-! ### The concrete placeholder tokens -/

theorem digitChar_ne (d : Nat) : digitChar d ≠ '\n' ∧ digitChar d ≠ '~' := by
  unfold digitChar
  by_cases h : d < 10
  · have : ∀ e < 10, (str ("0123456789")).getD e '0' ≠ '\n' ∧
        (str ("0123456789")).getD e '0' ≠ '~' := by decide
    exact this d h
  · rw [List.getD_eq_default _ _ (by simp [str]; omega)]
    decide

theorem natDigitsAux_chars (f : Nat) :
    ∀ n c, c ∈ natDigitsAux f n → c ≠ '\n' ∧ c ≠ '~' := by
  induction f with
  | zero =>
    intro n c hc
    simp [natDigitsAux] at hc
  | succ f ih =>
    intro n c hc
    rw [natDigitsAux] at hc
    by_cases h : n < 10
    · rw [if_pos h] at hc
      rcases List.mem_singleton.1 hc with rfl
      exact digitChar_ne n
    · rw [if_neg h] at hc
      rcases List.mem_append.1 hc with hc | hc
      · exact ih (n / 10) c hc
      · rcases List.mem_singleton.1 hc with rfl
        exact digitChar_ne (n % 10)

theorem nlFree_mdPlaceholder (i : Nat) : '\n' ∉ mdPlaceholder i := by
  unfold mdPlaceholder
  intro hm
  rcases List.mem_append.1 hm with hm | hm
  · rcases List.mem_append.1 hm with hm | hm
    · rcases List.mem_cons.1 hm with hm | hm
      · exact absurd hm (by decide)
      · have : ('\n' : Char) ∉ str ("wzxhzdk:") := by decide
        exact this hm
    · exact (natDigitsAux_chars (i + 1) i '\n' hm).1 rfl
  · rcases List.mem_singleton.1 hm with hm
    exact absurd hm (by decide)

theorem PhOK_cfg0 : PhOK cfg0 := by
  intro i l hl
  have hfree : '\n' ∉ mdPlaceholder i := nlFree_mdPlaceholder i
  have : splitNl (cfg0.ph i) = [mdPlaceholder i] := splitNl_of_nlFree _ hfree
  rw [this] at hl
  rcases List.mem_singleton.1 hl with rfl
  show tildeRun (('\x02' :: str ("wzxhzdk:")) ++ natDigits i ++ ['\x03']) < 3
  have e1 : ('\x02' :: str ("wzxhzdk:")) ++ natDigits i ++ ['\x03'] =
      '\x02' :: (str ("wzxhzdk:") ++ natDigits i ++ ['\x03']) := by simp
  rw [e1]
  simp [tildeRun]

/-! ### Unfolding the two branches of the fix-up -/

theorem fixup_nn (cfg : Cfg) (ls : List Str) (e : Nat) (st : List Str) (fr : Nat)
    (hsf : searchFenceFrom e 0 ls = some fr)
    (hcond : ends2nl (joinLines ls) = true) :
    fixup cfg ls e st =
      (match searchB (splitNl ((joinLines ls).take ((joinLines ls).length - 2) ++
          '\n' :: List.replicate fr '~' ++ '\n' :: '\n' :: [])) with
       | some m => processFence cfg m st
       | none => (splitNl ((joinLines ls).take ((joinLines ls).length - 2) ++
          '\n' :: List.replicate fr '~' ++ '\n' :: '\n' :: []), st)) := by
  rw [fixup, hsf]
  simp only [hcond, if_true]

theorem fixup_app (cfg : Cfg) (ls : List Str) (e : Nat) (st : List Str) (fr : Nat)
    (hsf : searchFenceFrom e 0 ls = some fr)
    (hcond : ends2nl (joinLines ls) = false) :
    fixup cfg ls e st =
      (match searchB (splitNl (joinLines ls ++ List.replicate fr '~')) with
       | some m => processFence cfg m st
       | none => (splitNl (joinLines ls ++ List.replicate fr '~'), st)) := by
  rw [fixup, hsf]
  simp only [hcond, Bool.false_eq_true, if_false]

/-! ### The claims -/

/-- C1: for every well-formed input containing N disjoint fenced blocks with
matching tilde-run delimiters, `run` returns the plain lines unchanged with
each block replaced — in input order — by a blank-line-framed placeholder
token (`cfg.ph k` for the `k`-th store call) or blockquote expansion, exactly
as described by `docOut`; and when none of the blocks carries the
`quote`/`quoted` tag the Placeholder Store receives exactly N = `numBlocks`
`store` calls (the stash has exactly N elements, in block order). -/
theorem claim_C1 (cfg : Cfg) (doc : List Item) (hwf : docWF doc)
    (hph : PhOK cfg) :
    run cfg (docLines doc) = docOut cfg 0 doc ∧
      ((∀ i ∈ doc, isQuoteItem i = false) →
        (run cfg (docLines doc)).2.length = numBlocks doc) := by
  have h1 := run_doc cfg doc hwf hph
  refine ⟨h1, fun hnq => ?_⟩
  rw [h1, docOut_stash_length cfg doc hnq 0]

theorem claim_C1_witness :
    run cfg0 (docLines [Item.plain (str ("a")), Item.block 3 [] [str ("b")],
        Item.plain (str ("c"))]) =
      docOut cfg0 0 [Item.plain (str ("a")), Item.block 3 [] [str ("b")],
        Item.plain (str ("c"))] ∧
    (run cfg0 (docLines [Item.plain (str ("a")), Item.block 3 [] [str ("b")],
        Item.plain (str ("c"))])).2.length =
      numBlocks [Item.plain (str ("a")), Item.block 3 [] [str ("b")],
        Item.plain (str ("c"))] := by
  have hwf : docWF [Item.plain (str ("a")), Item.block 3 [] [str ("b")],
      Item.plain (str ("c"))] := by
    refine ⟨by simp, ?_⟩
    intro i hi
    rcases List.mem_cons.1 hi with rfl | hi
    · exact ⟨by decide, by decide⟩
    rcases List.mem_cons.1 hi with rfl | hi
    · refine ⟨by decide, by simp, ?_⟩
      intro l hl
      rcases List.mem_singleton.1 hl with rfl
      exact ⟨by decide, by decide⟩
    rcases List.mem_singleton.1 hi with rfl
    exact ⟨by decide, by decide⟩
  obtain ⟨h1, h2⟩ := claim_C1 cfg0 _ hwf PhOK_cfg0
  refine ⟨h1, h2 ?_⟩
  intro i hi
  rcases List.mem_cons.1 hi with rfl | hi
  · decide
  rcases List.mem_cons.1 hi with rfl | hi
  · decide
  rcases List.mem_singleton.1 hi with rfl
  decide

/-- C2: the closing fence must be the same literal tilde run as the opening
fence (matched via the back-reference): on the input lines `~~~~`, `~~~`,
`~~~~` the search recognizes exactly one fenced block whose code body is the
line `~~~` (the 3-tilde line does not close the 4-tilde fence, as
`closerLine 4` rejects it), and `run` stashes exactly that one block. -/
theorem claim_C2 :
    searchB [str ("~~~~"), str ("~~~"), str ("~~~~")] =
      some ⟨[], 4, [], [], [str ("~~~")], 0, []⟩ ∧
    closerLine 4 (str ("~~~")) = none ∧
    run cfg0 [str ("~~~~"), str ("~~~"), str ("~~~~")] =
      ([[], mdPlaceholder 0, []], [str ("<pre><code>~~~\n</code></pre>")]) := by
  exact ⟨by decide, by decide, by decide⟩

/-- C3 counterexample: the claim says every line of at least `n` tildes
closes a fence opened with `n` tildes.  The line `~~~~~` (5 tildes, nothing
else) does NOT close a 4-tilde fence: `closerLine 4` rejects it, and on the
input `~~~~ / x / ~~~~~ / ~~~~` the 5-tilde line ends up inside the single
block's code body instead of closing the block early. -/
theorem claim_C3_cex :
    str ("~~~~~") = List.replicate 5 '~' ∧
    closerLine 4 (str ("~~~~~")) = none ∧
    run cfg0 [str ("~~~~"), str ("x"), str ("~~~~~"), str ("~~~~")] =
      ([[], mdPlaceholder 0, []], [str ("<pre><code>x\n~~~~~\n</code></pre>")]) := by
  exact ⟨by decide, by decide, by decide⟩

/-- C3 (amended): a fence opened with a run of `n` tildes is closed exactly
by the lines consisting of exactly `n` tildes followed only by spaces — not
by lines with more than `n` tildes. -/
theorem claim_C3 (n : Nat) (l : Str) (_h3 : 3 ≤ n) :
    (∃ tr, closerLine n l = some tr) ↔
      ∃ k, l = List.replicate n '~' ++ List.replicate k ' ' := by
  constructor
  · rintro ⟨tr, htr⟩
    exact ⟨tr, (closerLine_some n l tr htr).1⟩
  · rintro ⟨k, rfl⟩
    refine ⟨k, ?_⟩
    have ht : (List.replicate n '~' ++ List.replicate k ' ').take n =
        List.replicate n '~' := by
      have := List.take_left (List.replicate n '~') (List.replicate k ' ')
      rwa [List.length_replicate] at this
    have hd : (List.replicate n '~' ++ List.replicate k ' ').drop n =
        List.replicate k ' ' := by
      have := List.drop_left (List.replicate n '~') (List.replicate k ' ')
      rwa [List.length_replicate] at this
    have ha : (List.replicate k ' ').all (fun c => decide (c = ' ')) = true := by
      rw [List.all_eq_true]
      intro x hx
      simp [List.eq_of_mem_replicate hx]
    unfold closerLine
    rw [ht, if_pos rfl, hd, ha, if_pos rfl, List.length_replicate]

theorem claim_C3_witness :
    3 ≤ 4 ∧ ((∃ tr, closerLine 4 (str ("~~~~ ")) = some tr) ↔
      ∃ k, str ("~~~~ ") = List.replicate 4 '~' ++ List.replicate k ' ') :=
  ⟨by decide, claim_C3 4 (str ("~~~~ ")) (by decide)⟩

/-- C4: for every fenced block whose language tag is `quote` or `quoted`,
`process_fence` splices the blockquote replacement (paragraphs split on
blank lines, empty lines dropped, remaining lines prefixed with `"> "`) in
place of the block with no placeholder and no store call; in particular the
body `line1\nline2\n\nline3` yields `> line1\n> line2\n\n> line3`, and a
full `run` over such a block produces the blockquote lines with an empty
stash. -/
theorem claim_C4 :
    (∀ (cfg : Cfg) (m : FMatch) (st : List Str),
      isQuoteTag m.lang = true →
      processFence cfg m st =
        (m.pre ++ [[]] ++ splitNl (quoteRepl (flatLn m.body)) ++ [[]] ++ m.suf,
          st)) ∧
    quoteRepl (str ("line1\nline2\n\nline3")) =
      str ("> line1\n> line2\n\n> line3") ∧
    run cfg0 [str ("~~~ quote"), str ("line1"), str ("line2"), str (""),
        str ("line3"), str ("~~~")] =
      ([[], str ("> line1"), str ("> line2"), [], str ("> line3"), []], []) := by
  exact ⟨fun cfg m st h => processFence_quote cfg m st h, by decide, by decide⟩

theorem claim_C4_witness :
    isQuoteTag (str ("quote")) = true ∧
    processFence cfg0 ⟨[], 3, str (" quote"), str ("quote"), [str ("hi")], 0, []⟩
        [] =
      ([] ++ [[]] ++ splitNl (quoteRepl (flatLn [str ("hi")])) ++ [[]] ++ [],
        []) :=
  ⟨by decide, claim_C4.1 cfg0 ⟨[], 3, str (" quote"), str ("quote"),
    [str ("hi")], 0, []⟩ [] (by decide)⟩

/-- C5: with no syntax highlighter configured, a fenced block is stashed as
`<pre><code CLASS?>ESCAPED_BODY</code></pre>`, the `class="LANG"` attribute
being present exactly when a non-empty language tag was given; in
particular tag `python` with body `code_here` is stashed as
`<pre><code class="python">code_here\n</code></pre>` (the captured body
carries its trailing newline). -/
theorem claim_C5 (cfg : Cfg) (n : Nat) (lang : Str) (body : List Str)
    (hhi : cfg.hilite = none) (hph : PhOK cfg) (h3 : 3 ≤ n)
    (hw : ∀ c ∈ lang, isWordChar c = true)
    (hb : ∀ l ∈ body, lineOK l) (hq : isQuoteTag lang = false) :
    run cfg (docLines [Item.block n lang body]) =
      ([[]] ++ splitNl (cfg.ph 0) ++ [[]],
        [codeWrap (if lang = [] then [] else langTag lang)
          (escape (flatLn body))]) ∧
    ((if lang = [] then ([] : Str) else langTag lang) = [] ↔ lang = []) ∧
    run cfg0 [str ("~~~ python"), str ("code_here"), str ("~~~")] =
      ([[], mdPlaceholder 0, []],
        [str ("<pre><code class=\"python\">code_here\n</code></pre>")]) := by
  refine ⟨?_, ?_, by decide⟩
  · have hwf : docWF [Item.block n lang body] := by
      refine ⟨by simp, ?_⟩
      intro i hi
      rcases List.mem_singleton.1 hi with rfl
      exact ⟨h3, hw, hb⟩
    rw [run_doc cfg [Item.block n lang body] hwf hph]
    simp [docOut, itemOut, blockMarkup, hq, hhi]
  · constructor
    · intro h
      by_cases hl : lang = []
      · exact hl
      · rw [if_neg hl] at h
        have h2 := congrArg List.length h
        rw [langTag] at h2
        simp only [List.length_append, List.length_nil] at h2
        have h9 : (str (" class=\"")).length = 8 := by decide
        simp [h9] at h2
    · intro h
      rw [if_pos h]

theorem claim_C5_witness :
    run cfg0 (docLines [Item.block 3 (str ("py")) [str ("x")]]) =
      ([[]] ++ splitNl (cfg0.ph 0) ++ [[]],
        [codeWrap (if str ("py") = ([] : Str) then [] else langTag (str ("py")))
          (escape (flatLn [str ("x")]))]) :=
  (claim_C5 cfg0 3 (str ("py")) [str ("x")] rfl PhOK_cfg0 (by decide) (by decide)
    (by intro l hl; rcases List.mem_singleton.1 hl with rfl;
        exact ⟨by decide, by decide⟩)
    (by decide)).1

/-- C6: `_escape` replaces `&`, `<`, `>`, `"` in that order (`&` first):
escaping `<b>&"x"</b>` yields `&lt;b&gt;&amp;&quot;x&quot;&lt;/b&gt;`, and
escaping is not idempotent — escaping twice differs from escaping once. -/
theorem claim_C6 :
    escape (str ("<b>&\"x\"</b>")) =
      str ("&lt;b&gt;&amp;&quot;x&quot;&lt;/b&gt;") ∧
    escape (escape (str ("<b>&\"x\"</b>"))) ≠ escape (str ("<b>&\"x\"</b>")) := by
  exact ⟨by decide, by decide⟩

/-- C7: when, after the main loop, a dangling opening fence is found and the
working text ends with two trailing newlines (its line list is `L ++ ["", ""]`),
the fix-up inserts a synthetic closing fence of the same tilde count before
the two newlines — the new line list is `L ++ [~{fr}, "", ""]` — and then a
complete fenced block matches and is processed as a normal block.  Only one
fix-up is attempted: with two unterminated fences (`~~~ python` then
`~~~ ruby`) only one store happens and the second fence survives only as
literal text inside the first block's stored markup. -/
theorem claim_C7 :
    (∀ (cfg : Cfg) (L : List Str) (e : Nat) (st : List Str) (fr : Nat),
      searchB (L ++ [[], []]) = none →
      searchFenceFrom e 0 (L ++ [[], []]) = some fr →
      (∀ l ∈ L, '\n' ∉ l) → L ≠ [] →
      ∃ m, searchB (L ++ [List.replicate fr '~', [], []]) = some m ∧
        fixup cfg (L ++ [[], []]) e st = processFence cfg m st) ∧
    run cfg0 [str ("~~~ python"), str ("code"), str (""), str ("")] =
      ([[], mdPlaceholder 0, [], [], []],
        [str ("<pre><code class=\"python\">code\n</code></pre>")]) ∧
    run cfg0 [str ("~~~ python"), str ("a"), str ("~~~ ruby"), str ("b"),
        str (""), str ("")] =
      ([[], mdPlaceholder 0, [], [], []],
        [str ("<pre><code class=\"python\">a\n~~~ ruby\nb\n</code></pre>")]) := by
  refine ⟨?_, by decide, by decide⟩
  intro cfg L e st fr hsB hsf hfree hL
  have hT : joinLines (L ++ [[], []]) = joinLines L ++ '\n' :: '\n' :: [] := by
    rw [joinLines_append L [[], []] hL (by simp)]
    rfl
  have hcond : ends2nl (joinLines (L ++ [[], []])) = true := by
    rw [hT]
    exact ends2nl_concat (joinLines L)
  have htake : (joinLines (L ++ [[], []])).take
      ((joinLines (L ++ [[], []])).length - 2) = joinLines L := by
    rw [hT]
    have hlen : (joinLines L ++ '\n' :: '\n' :: []).length - 2 =
        (joinLines L).length := by
      rw [List.length_append]
      simp
    rw [hlen]
    exact List.take_left (joinLines L) _
  have hreplfree : ('\n' : Char) ∉ List.replicate fr '~' :=
    fun hm => absurd (List.eq_of_mem_replicate hm) (by decide)
  have hsplit2 : splitNl (joinLines L ++ '\n' :: List.replicate fr '~' ++
      '\n' :: '\n' :: []) = L ++ [List.replicate fr '~', [], []] := by
    have e1 : joinLines L ++ ('\n' :: List.replicate fr '~') ++ '\n' :: '\n' :: [] =
        joinLines L ++ '\n' :: (List.replicate fr '~' ++ '\n' :: ['\n']) := by
      simp
    have e2 : joinLines L ++ '\n' :: List.replicate fr '~' ++ '\n' :: '\n' :: [] =
        joinLines L ++ ('\n' :: List.replicate fr '~') ++ '\n' :: '\n' :: [] := by
      simp
    rw [e2, e1, splitNl_append_nl, splitNl_append_nl,
      splitNl_joinLines L hL hfree, splitNl_of_nlFree _ hreplfree]
    rfl
  obtain ⟨l, hlmem, hlf⟩ := searchFenceFrom_sound (L ++ [[], []]) e 0 fr hsf
  have hlL : l ∈ L := by
    have hnone : fenceLine ([] : Str) = none := by decide
    rcases List.mem_append.1 hlmem with h | h
    · exact h
    · exfalso
      rcases List.mem_cons.1 h with rfl | h
      · rw [hnone] at hlf
        exact absurd hlf (by simp)
      · rcases List.mem_singleton.1 h with rfl
        rw [hnone] at hlf
        exact absurd hlf (by simp)
  obtain ⟨X, Y, hXY⟩ := List.append_of_mem hlL
  obtain ⟨lg, hop⟩ := openerLine_of_fenceLine l fr hlf
  have hne : searchB (L ++ [List.replicate fr '~', [], []]) ≠ none := by
    rw [hXY]
    have e3 : (X ++ l :: Y) ++ [List.replicate fr '~', [], []] =
        X ++ l :: (Y ++ [List.replicate fr '~', [], []]) := by
      simp
    rw [e3]
    exact searchB_ne_none X l _ fr lg (List.replicate fr '~') 0 hop
      (by simp) (closerLine_replicate fr)
  obtain ⟨m, hm⟩ := Option.ne_none_iff_exists'.1 hne
  refine ⟨m, hm, ?_⟩
  rw [fixup_nn cfg (L ++ [[], []]) e st fr hsf hcond, htake, hsplit2, hm]

theorem claim_C7_witness :
    ∃ m, searchB ([str ("~~~ python"), str ("code")] ++
        [List.replicate 3 '~', [], []]) = some m ∧
      fixup cfg0 ([str ("~~~ python"), str ("code")] ++ [[], []]) 0 [] =
        processFence cfg0 m [] :=
  claim_C7.1 cfg0 [str ("~~~ python"), str ("code")] 0 [] 3 (by decide)
    (by decide) (by decide) (by decide)

/-- C8 counterexample: the offset from which the dangling-fence search
starts is `m.end()` measured in the text BEFORE the substitution, not the
block's true end position in the mutated text.  On
`~~~ / xxxxxxxxxxxxxxxxxxxx / ~~~ / ~~~ / "" / ""` the last block's
pre-substitution end offset is 28, but the mutated text is only 19
characters long: the dangling `~~~` after the block (at offset 14, past the
block's true end 13) is NOT found — the search from 28 yields none while a
search from the true end 13 would find it — so the fence is left as literal
text and no repair happens. -/
theorem claim_C8_cex :
    run cfg0 [str ("~~~"), str ("xxxxxxxxxxxxxxxxxxxx"), str ("~~~"),
        str ("~~~"), str (""), str ("")] =
      ([[], mdPlaceholder 0, [], str ("~~~"), [], []],
        [str ("<pre><code>xxxxxxxxxxxxxxxxxxxx\n</code></pre>")]) ∧
    searchFenceFrom 28 0 [[], mdPlaceholder 0, [], str ("~~~"), [], []] =
      none ∧
    searchFenceFrom 13 0 [[], mdPlaceholder 0, [], str ("~~~"), [], []] =
      some 3 := by
  exact ⟨by decide, by decide, by decide⟩

/-- C8 (amended): after the main loop, `end` is the last match's end offset
as measured in that match's own pre-substitution text: if one block is
processed and the re-scan finds nothing, the loop returns
`end = matchEnd m`, and `matchEnd m + sufStrLen m.suf` is the length of the
PRE-substitution text.  Since the replacement may be shorter than the match,
this offset can exceed the block's end in the mutated text, and a dangling
opening fence located after the block in the final text can be missed. -/
theorem claim_C8 (cfg : Cfg) (ls : List Str) (e : Nat) (st : List Str)
    (m : FMatch) (f : Nat)
    (h1 : searchB ls = some m)
    (h2 : searchB (processFence cfg m st).1 = none) :
    mainLoop cfg (f + 2) ls e st =
      ((processFence cfg m st).1, matchEnd m, (processFence cfg m st).2) ∧
    matchEnd m + sufStrLen m.suf = (joinLines ls).length := by
  constructor
  · have e1 : f + 2 = (f + 1) + 1 := rfl
    rw [e1, mainLoop_some cfg (f + 1) ls e st m h1,
      mainLoop_none cfg f _ _ _ h2]
  · obtain ⟨hd, h3, _, _⟩ := searchB_decomp ls m h1
    have hlen : (joinLines ls).length =
        (flatLn m.pre).length + ((openerOf m).length + 1 +
          (flatLn m.body).length) + ((m.fence + m.trail) + sufStrLen m.suf) := by
      rw [hd]
      have hA : m.pre ++ openerOf m :: m.body ++ closerOf m :: m.suf =
          (m.pre ++ openerOf m :: m.body) ++ (closerOf m :: m.suf) := by
        simp
      rw [hA, joinLines_flat _ _ (by simp), flatLn_append, flatLn_cons]
      cases hsuf : m.suf with
      | nil =>
        simp only [joinLines, sufStrLen]
        rw [List.length_append, List.length_append]
        have hcl : (closerOf m).length = m.fence + m.trail := by
          rw [closerOf, List.length_append, List.length_replicate,
            List.length_replicate]
        simp [hcl]
        omega
      | cons s ss =>
        rw [joinLines_cons _ _ (by simp)]
        have hcl : (closerOf m).length = m.fence + m.trail := by
          rw [closerOf, List.length_append, List.length_replicate,
            List.length_replicate]
        simp only [sufStrLen, List.length_append, List.length_cons, hcl]
        omega
    rw [hlen]
    unfold matchEnd
    omega

theorem claim_C8_witness :
    mainLoop cfg0 2 [str ("~~~"), str ("x"), str ("~~~")] 0 [] =
      ((processFence cfg0 ⟨[], 3, [], [], [str ("x")], 0, []⟩ []).1,
        matchEnd ⟨[], 3, [], [], [str ("x")], 0, []⟩,
        (processFence cfg0 ⟨[], 3, [], [], [str ("x")], 0, []⟩ []).2) ∧
    matchEnd ⟨[], 3, [], [], [str ("x")], 0, []⟩ +
        sufStrLen (FMatch.suf ⟨[], 3, [], [], [str ("x")], 0, []⟩) =
      (joinLines [str ("~~~"), str ("x"), str ("~~~")]).length :=
  claim_C8 cfg0 [str ("~~~"), str ("x"), str ("~~~")] 0 []
    ⟨[], 3, [], [], [str ("x")], 0, []⟩ 0 (by decide) (by decide)

/-- C9: the main `while 1` loop of `run` terminates on every finite input
when the placeholder tokens are opaque (no fence marker among their lines):
every substitution strictly decreases the number of fence-marker lines, so
the fuel `countFence ls + 1` that `run` uses suffices — the loop reaches the
no-match exit (`searchB` of the final text is `none`) and any extra fuel
leaves the result unchanged. -/
theorem claim_C9 (cfg : Cfg) (ls : List Str) (e : Nat) (st : List Str)
    (hph : PhOK cfg) :
    (∀ m, searchB ls = some m →
      countFence (processFence cfg m st).1 < countFence ls) ∧
    searchB (mainLoop cfg (countFence ls + 1) ls e st).1 = none ∧
    (∀ k, mainLoop cfg (countFence ls + 1 + k) ls e st =
      mainLoop cfg (countFence ls + 1) ls e st) := by
  obtain ⟨h1, h2⟩ := mainLoop_fuel cfg hph (countFence ls + 1) ls e st (by omega)
  exact ⟨fun m hm => countFence_decrease cfg ls m st hm hph, h1, h2⟩

theorem claim_C9_witness :
    searchB (mainLoop cfg0
      (countFence [str ("~~~"), str ("x"), str ("~~~")] + 1)
      [str ("~~~"), str ("x"), str ("~~~")] 0 []).1 = none :=
  (claim_C9 cfg0 [str ("~~~"), str ("x"), str ("~~~")] 0 [] PhOK_cfg0).2.1

/-- C10 counterexample: the claim says that when the dangling opening fence
is the document's final line, after the tildes are appended no complete
fenced block can match and the output's final line is the fence text with
the synthetic run appended.  On
`~~~ / xxxxxxxxxxxxx / ~~~ / ~~~~~~ / ~~~` the stale search offset skips the
`~~~~~~` opener, the final `~~~` gets `~~~` appended, the resulting
`~~~~~~` line CLOSES the earlier 6-tilde opener: a block does match, a
second store happens, and the output's final line is empty rather than the
fence text with tildes appended. -/
theorem claim_C10_cex :
    run cfg0 [str ("~~~"), str ("xxxxxxxxxxxxx"), str ("~~~"), str ("~~~~~~"),
        str ("~~~")] =
      ([[], mdPlaceholder 0, [], [], mdPlaceholder 1, []],
        [str ("<pre><code>xxxxxxxxxxxxx\n</code></pre>"),
          str ("<pre><code></code></pre>")]) ∧
    ([[], mdPlaceholder 0, [], [], mdPlaceholder 1, []] : List Str).getLast? ≠
      some (str ("~~~") ++ List.replicate 3 '~') ∧
    ([str ("<pre><code>xxxxxxxxxxxxx\n</code></pre>"),
        str ("<pre><code></code></pre>")] : List Str).length ≠ 1 := by
  exact ⟨by decide, by decide, by decide⟩

/-- C10 (amended): when the text does not end with two newlines, the
synthetic tildes are appended directly to the end of the text with no
newline separator.  When additionally the dangling fence found is the final
line and no other line of the text carries a fence marker, no complete
fenced block can match afterwards (the extended final line is not followed
by a newline and nothing else can open or close a block), and the output's
final line is the opening fence text with the synthetic tilde run appended. -/
theorem claim_C10 (cfg : Cfg) (L : List Str) (l : Str) (e : Nat)
    (st : List Str) (fr : Nat)
    (hsf : searchFenceFrom e 0 (L ++ [l]) = some fr)
    (hf : fenceLine l = some fr)
    (hLsmall : ∀ x ∈ L, tildeRun x < 3)
    (hfree : ∀ x ∈ L ++ [l], '\n' ∉ x) :
    fixup cfg (L ++ [l]) e st = (L ++ [l ++ List.replicate fr '~'], st) ∧
      searchB (L ++ [l ++ List.replicate fr '~']) = none ∧
      (L ++ [l ++ List.replicate fr '~']).getLast? =
        some (l ++ List.replicate fr '~') := by
  obtain ⟨hfr, hge3, _⟩ := fenceLine_some l fr hf
  have hlne : l ≠ [] := by
    intro h
    subst h
    rw [show tildeRun ([] : Str) = 0 from rfl] at hfr
    omega
  have hlfree : '\n' ∉ l := hfree l (by simp)
  have hJ : joinLines (L ++ [l]) = flatLn L ++ l := joinLines_concat L l
  have hcond : ends2nl (joinLines (L ++ [l])) = false := by
    obtain ⟨c, r, hrev⟩ : ∃ c r, l.reverse = c :: r := by
      cases hr : l.reverse with
      | nil => exact absurd (List.reverse_eq_nil_iff.1 hr) hlne
      | cons c r => exact ⟨c, r, rfl⟩
    have hcl : c ∈ l := List.mem_reverse.1 (hrev ▸ List.mem_cons_self c r)
    have hcn : c ≠ '\n' := fun hcc => hlfree (hcc ▸ hcl)
    refine ends2nl_false_of_last _ c (r ++ (flatLn L).reverse) ?_ hcn
    rw [hJ, List.reverse_append, hrev]
    rfl
  have happ : joinLines (L ++ [l]) ++ List.replicate fr '~' =
      joinLines (L ++ [l ++ List.replicate fr '~']) := by
    rw [hJ, joinLines_concat L (l ++ List.replicate fr '~')]
    simp
  have hfree2 : ∀ x ∈ L ++ [l ++ List.replicate fr '~'], '\n' ∉ x := by
    intro x hx
    rcases List.mem_append.1 hx with hx | hx
    · exact hfree x (List.mem_append_left _ hx)
    · rcases List.mem_singleton.1 hx with rfl
      intro hm
      rcases List.mem_append.1 hm with hm | hm
      · exact hlfree hm
      · exact absurd (List.eq_of_mem_replicate hm) (by decide)
  have hsplit : splitNl (joinLines (L ++ [l ++ List.replicate fr '~'])) =
      L ++ [l ++ List.replicate fr '~'] :=
    splitNl_joinLines _ (by simp) hfree2
  have hnone : searchB (L ++ [l ++ List.replicate fr '~']) = none := by
    rw [searchB_append_pre L [l ++ List.replicate fr '~']
      (fun x hx => openerLine_none x (hLsmall x hx)), searchB_singleton]
    rfl
  refine ⟨?_, hnone, List.getLast?_concat _⟩
  rw [fixup_app cfg (L ++ [l]) e st fr hsf hcond, happ, hsplit, hnone]

theorem claim_C10_witness :
    fixup cfg0 ([str ("a")] ++ [str ("~~~")]) 0 [] =
      ([str ("a")] ++ [str ("~~~") ++ List.replicate 3 '~'], []) ∧
    searchB ([str ("a")] ++ [str ("~~~") ++ List.replicate 3 '~']) = none ∧
    ([str ("a")] ++ [str ("~~~") ++ List.replicate 3 '~']).getLast? =
      some (str ("~~~") ++ List.replicate 3 '~') :=
  claim_C10 cfg0 [str ("a")] (str ("~~~")) 0 [] 3 (by decide) (by decide)
    (by decide) (by decide)

end Fenced
